import Mathlib

/-!
# RapidSift — verification of the deduplication / filtering core

Shallow embedding of the parts of the RapidSift C++ sources that the
specification's claims talk about, together with proofs or refutations of
those claims.  Every definition is translated from the C++ source file it
names; machine integers are modelled as `Nat` (with explicit `% 2^64` where
overflow matters), C++ `double` scores as `ℚ` where the computations involved
are exact, and the implementation-defined / external hash primitives
(`std::hash`, OpenSSL digests, the xxhash library) as explicit function
parameters, since only their interface is fixed by the repository.
-/

namespace RapidSift

/-! ## Byte-level character predicates (C locale, ASCII)

`std::isspace` / `std::tolower` / `std::ispunct` etc. in the default C locale,
as used throughout the sources on byte strings. -/

/-- `std::isspace` in the default C locale (ASCII whitespace). -/
def isSpaceC (c : Char) : Bool :=
  c = ' ' || c = '\t' || c = '\n' || c = '\x0b' || c = '\x0c' || c = '\r'

/-- `std::tolower` in the default C locale (ASCII only). -/
def toLowerC (c : Char) : Char :=
  if 'A' ≤ c ∧ c ≤ 'Z' then Char.ofNat (c.toNat + 32) else c

/-! ## `text_utils` from `src/filters/dedup/src/utils.cpp` -/

/-- The whitespace-collapsing pass of `text_utils::normalize_text`
(`std::regex_replace(result, std::regex("\\s+"), " ")`): every maximal run
of whitespace characters is replaced by a single `' '`.  The boolean state
records whether the previous character was part of a whitespace run. -/
def collapseWs : Bool → List Char → List Char
  | _, [] => []
  | inWs, c :: cs =>
    if isSpaceC c then
      if inWs then collapseWs true cs else ' ' :: collapseWs true cs
    else
      c :: collapseWs false cs

/-- Trim characters satisfying `p` from the front and the back of a list
(the two `erase`/`find_if` trims of `text_utils::normalize_text`). -/
def trimBy (p : Char → Bool) (l : List Char) : List Char :=
  ((l.dropWhile p).reverse.dropWhile p).reverse

/-- `text_utils::normalize_text` (dedup `utils.cpp`, lines 16-32): lowercase,
collapse whitespace runs to a single space, trim whitespace at both ends. -/
def normalize_text (s : List Char) : List Char :=
  trimBy isSpaceC (collapseWs false (s.map toLowerC))

/-- `text_utils::generate_ngrams` (dedup `utils.cpp`, lines 47-61):
normalize the text; if the normalized text is shorter than `n` return the
one-element list holding the whole normalized text, otherwise return all
length-`n` character windows. -/
def generate_ngrams (s : List Char) (n : Nat) : List (List Char) :=
  let normalized := normalize_text s
  if normalized.length < n then
    [normalized]
  else
    (List.range (normalized.length - n + 1)).map
      (fun i => (normalized.drop i).take n)

/-- `NearDeduplicator::generate_ngrams` (`near_dedup.cpp`, lines 356-370):
textually the same algorithm as `text_utils::generate_ngrams` (normalize,
then either the singleton of the whole normalized text or the length-`n`
character windows). -/
def nearGenerateNgrams (s : List Char) (n : Nat) : List (List Char) :=
  let normalized := normalize_text s
  if normalized.length < n then
    [normalized]
  else
    (List.range (normalized.length - n + 1)).map
      (fun i => (normalized.drop i).take n)

/-! ## Exact deduplication, `src/filters/dedup/src/exact_dedup.cpp`

The hash primitives the pipeline consumes are external to the repository
(OpenSSL digests, the xxhash library) or defective (see the `xxhash64`
wrapper below), so `deduplicate` is embedded parametrically in the 64-bit
text-hash function `h`.  `std::unordered_map` grouping is modelled as an
association list in key-insertion order; every fact proved below about the
result is invariant under reordering of that map's iteration. -/

/-- A document of the dedup subsystem (`common.hpp`, lines 39-57). -/
structure Document where
  text : String
  id : Nat
deriving DecidableEq, Repr

/-- `DeduplicationResult` (`common.hpp`, lines 62-102), the fields the claims
touch. -/
structure DeduplicationResult where
  uniqueDocuments : List Document := []
  originalIndices : List Nat := []
  duplicateGroups : List (List Nat) := []
  originalCount : Nat := 0
deriving Repr

/-- `DeduplicationResult::unique_count`. -/
def DeduplicationResult.uniqueCount (r : DeduplicationResult) : Nat :=
  r.uniqueDocuments.length

/-- `DeduplicationResult::duplicates_removed`. -/
def DeduplicationResult.duplicatesRemoved (r : DeduplicationResult) : Nat :=
  r.originalCount - r.uniqueCount

/-- `DeduplicationResult::reduction_percentage` (`common.hpp`, lines 87-89):
`duplicates_removed / original_count * 100`, `0` when the count is `0`.
The concrete divisions the claims evaluate are exact in `double`, so the
score is modelled in `ℚ`. -/
def DeduplicationResult.reductionPercentage (r : DeduplicationResult) : ℚ :=
  if r.originalCount > 0 then
    ((r.duplicatesRemoved : ℚ) / (r.originalCount : ℚ)) * 100
  else 0

/-- One step of `ExactDeduplicator::group_by_hash`
(`groups[hashes[i]].push_back(i)`): append `i` to the entry keyed `key`,
creating the entry if absent. -/
def insertGroup (key : Nat) (i : Nat) : List (Nat × List Nat) → List (Nat × List Nat)
  | [] => [(key, [i])]
  | (k, l) :: rest =>
    if k = key then (k, l ++ [i]) :: rest else (k, l) :: insertGroup key i rest

/-- `ExactDeduplicator::group_by_hash` (`exact_dedup.cpp`, lines 145-156):
group document indices by their hash value. -/
def groupByHash (hashes : List Nat) : List (Nat × List Nat) :=
  hashes.enum.foldl (fun gs p => insertGroup p.2 p.1 gs) []

/-- `ExactDeduplicator::select_unique_documents` (`exact_dedup.cpp`, lines
158-178): take the first (or last) index of every group; with `keep_first`
the indices are then sorted ascending. -/
def selectUniqueDocuments (keepFirst : Bool) (groups : List (Nat × List Nat)) : List Nat :=
  let uniq := groups.map (fun g => if keepFirst then g.2.headD 0 else g.2.getLastD 0)
  if keepFirst then uniq.insertionSort (· ≤ ·) else uniq

/-- `ExactDeduplicator::deduplicate` (`exact_dedup.cpp`, lines 14-72),
parametric in the 64-bit text hash `h` (`compute_document_hash` dispatches to
external digest code; the parallel branch computes the same hashes). -/
def deduplicate (h : String → Nat) (keepFirst : Bool) (docs : List Document) :
    DeduplicationResult :=
  if docs.isEmpty then {} else
  let hashes := docs.map (fun d => h d.text)
  let groups := groupByHash hashes
  let uniqueIdx := selectUniqueDocuments keepFirst groups
  { uniqueDocuments := uniqueIdx.map (fun i => docs.getD i ⟨"", 0⟩)
    originalIndices := uniqueIdx
    duplicateGroups := (groups.filter (fun g => g.2.length > 1)).map (·.2)
    originalCount := docs.length }

/-! ## `hash_utils` from `exact_dedup.cpp`, lines 210-267

`compute_hash` dispatches on the algorithm.  The MD5/SHA1/SHA256 branches
call external OpenSSL digest routines (modelled as parameters) and truncate
to the leading 8 bytes.  The `XXHASH64` branch calls
`hash_utils::xxhash64`, whose entire body (lines 227-229) is
`return hash_utils::xxhash64(text);` — an unconditional call to itself, so
the function can never return.  The recursion is modelled with explicit
fuel: one unit of fuel is one stack frame, and `none` means the call depth
was exhausted without producing a value.  Since the body consumes a frame
and re-invokes itself unchanged, no amount of fuel yields a result. -/

/-- `HashAlgorithm` (`common.hpp`, lines 107-112). -/
inductive HashAlgorithm where
  | MD5
  | SHA1
  | SHA256
  | XXHASH64
deriving DecidableEq, Repr

/-- Fuel semantics of `hash_utils::xxhash64` (`exact_dedup.cpp`, lines
227-229): the body immediately calls `hash_utils::xxhash64(text)` again. -/
def xxhash64Fuel : Nat → String → Option Nat
  | 0, _ => none
  | n + 1, s => xxhash64Fuel n s

/-- Fuel semantics of `hash_utils::compute_hash` (`exact_dedup.cpp`, lines
212-225), parametric in the external OpenSSL digests (already truncated to
64 bits); the `XXHASH64` case (also the `default:` case) runs the
self-recursive wrapper. -/
def computeHashFuel (md5 sha1 sha256 : String → Nat) :
    Nat → HashAlgorithm → String → Option Nat
  | _, .MD5, s => some (md5 s)
  | _, .SHA1, s => some (sha1 s)
  | _, .SHA256, s => some (sha256 s)
  | fuel, .XXHASH64, s => xxhash64Fuel fuel s

/-- The six-document input batch of the exact-dedup concrete scenario,
texts A,B,A,C,B,A in input order. -/
def c1docs : List Document :=
  [⟨"A", 0⟩, ⟨"B", 1⟩, ⟨"A", 2⟩, ⟨"C", 3⟩, ⟨"B", 4⟩, ⟨"A", 5⟩]

/-- A concrete 64-bit-style text hash separating the three scenario texts,
standing in for the external digest at the witness instantiation. -/
def c1hash : String → Nat := fun s =>
  if s = "A" then 10 else if s = "B" then 20 else if s = "C" then 30 else 0


/-! ## Near-duplicate deduplication, `src/filters/dedup/src/near_dedup.cpp`

The SimHash variant is embedded end to end.  Token hashing
(`SimHashSignature::token_hash`) delegates to `hash_utils::xxhash64`, the
defective self-recursive wrapper settled under the termination claim, so the
pipeline is embedded parametrically in the token-hash function `h`; every
statement below holds for all `h`, and concrete instantiations pick one. -/

/-- Word characters of the `std::regex` class `\\w` used by
`text_utils::tokenize` (`utils.cpp`, line 36). -/
def isWordChar (c : Char) : Bool :=
  ('a' ≤ c && c ≤ 'z') || ('A' ≤ c && c ≤ 'Z') || ('0' ≤ c && c ≤ '9') || c = '_'

/-- Accumulator pass splitting a character list into the maximal runs of
word characters, i.e. the matches of the regex used by
`text_utils::tokenize`. -/
def tokenizeAux : List Char → List Char → List (List Char)
  | [], acc => if acc.isEmpty then [] else [acc.reverse]
  | c :: cs, acc =>
    if isWordChar c then tokenizeAux cs (c :: acc)
    else if acc.isEmpty then tokenizeAux cs []
    else acc.reverse :: tokenizeAux cs []

/-- `text_utils::tokenize` (dedup `utils.cpp`, lines 34-45): the maximal
word-character runs of the text, each lowercased. -/
def tokenize (s : List Char) : List (List Char) :=
  (tokenizeAux s []).map (List.map toLowerC)

/-- `__builtin_popcountll`: the number of set bits of a 64-bit value. -/
def popcount64 (n : Nat) : Nat :=
  ((List.range 64).filter (fun i => n.testBit i)).length

/-- `SimHashSignature::hamming_distance` on raw 64-bit signature values
(`near_dedup.cpp`, lines 156-159): popcount of the bitwise xor. -/
def hammingDistance (a b : Nat) : Nat := popcount64 (a ^^^ b)

/-- The per-bit accumulator of `SimHashSignature::compute`
(`near_dedup.cpp`, lines 133-146): +1 for every token whose hash has bit
`i` set, -1 otherwise. -/
def bitBalance (h : List Char → Nat) (tokens : List (List Char)) (i : Nat) : Int :=
  tokens.foldl (fun acc t => if (h t).testBit i then acc + 1 else acc - 1) 0

/-- `SimHashSignature::compute` (`near_dedup.cpp`, lines 128-154): tokenize,
accumulate the per-bit balances, and set bit `i` of the signature exactly
when the balance is positive. -/
def simhashCompute (h : List Char → Nat) (numBits : Nat) (text : List Char) : Nat :=
  let tokens := tokenize text
  (List.range numBits).foldl
    (fun hv i => if bitBalance h tokens i > 0 then hv + 2 ^ i else hv) 0

/-- A `SimHashSignature` (`near_dedup.hpp`): bit width and 64-bit value. -/
structure SimHashSignature where
  numBits : Nat
  hashValue : Nat
deriving DecidableEq, Repr

/-- `SimHashSignature::hamming_distance` (`near_dedup.cpp`, lines 156-159). -/
def SimHashSignature.hamming (s other : SimHashSignature) : Nat :=
  hammingDistance s.hashValue other.hashValue

/-- `SimHashSignature::similarity` (`near_dedup.cpp`, lines 161-164):
`1 - distance / num_bits_`, the divisor being the receiver's bit width.
The divisions the claims touch are exact in `double`, modelled in `ℚ`. -/
def SimHashSignature.similarity (s other : SimHashSignature) : ℚ :=
  1 - (s.hamming other : ℚ) / (s.numBits : ℚ)

/-- The `hamming_threshold` computation of
`NearDeduplicator::find_similar_groups_simhash` (`near_dedup.cpp`, line
417): `(size_t)((1.0 - threshold) * simhash_bits)`. -/
def hammingThreshold (threshold : ℚ) (bits : Nat) : Nat :=
  (⌊(1 - threshold) * (bits : ℚ)⌋).toNat

/-- The double loop of `NearDeduplicator::find_similar_groups_simhash`
(`near_dedup.cpp`, lines 419-439): scan indices in order; an unprocessed
`i` opens a candidate group and every later unprocessed `j` within the
hamming threshold joins it; groups of size at least 2 are emitted and all
scanned members are marked processed. -/
def simGroupsFold (sigs : List Nat) (thr : Nat) :
    List Nat → List Nat → List (List Nat)
  | [], _ => []
  | i :: rest, proc =>
    if i ∈ proc then simGroupsFold sigs thr rest proc
    else
      let similar := i :: rest.filter (fun j =>
        !decide (j ∈ proc) &&
          decide (hammingDistance (sigs.getD i 0) (sigs.getD j 0) ≤ thr))
      if similar.length > 1 then
        similar :: simGroupsFold sigs thr rest (proc ++ similar)
      else
        simGroupsFold sigs thr rest (proc ++ similar)

/-- `NearDeduplicator::find_similar_groups_simhash` (`near_dedup.cpp`,
lines 410-442). -/
def findSimilarGroupsSimhash (sigs : List Nat) (thr : Nat) : List (List Nat) :=
  simGroupsFold sigs thr (List.range sigs.length) []

/-- The final pass of `NearDeduplicator::deduplicate_simhash`
(`near_dedup.cpp`, lines 275-295), shared verbatim with the MinHash variant
(lines 216-238): re-derive the processed set from the groups, emit the
first member of every (non-empty) group, then every ungrouped document in
ascending index order. -/
def dedupFromGroups (docs : List Document) (groups : List (List Nat)) :
    DeduplicationResult :=
  let grouped := groups.foldl (· ++ ·) []
  let fromGroups := groups.filterMap List.head?
  let rest := (List.range docs.length).filter (fun i => !decide (i ∈ grouped))
  { uniqueDocuments := (fromGroups ++ rest).map (fun i => docs.getD i ⟨"", 0⟩)
    originalIndices := fromGroups ++ rest
    duplicateGroups := groups.filter (fun g => !g.isEmpty)
    originalCount := docs.length }

/-- `NearDeduplicator::deduplicate_simhash` (`near_dedup.cpp`, lines
244-299), parametric in the token hash `h`. -/
def deduplicateSimhash (h : List Char → Nat) (bits : Nat) (threshold : ℚ)
    (docs : List Document) : DeduplicationResult :=
  if docs.isEmpty then {} else
  let sigs := docs.map (fun d => simhashCompute h bits d.text.data)
  dedupFromGroups docs (findSimilarGroupsSimhash sigs (hammingThreshold threshold bits))

/-- The three-document batch of the near-dedup ordering counterexample:
an empty text followed by two identical texts. -/
def c3docs : List Document := [⟨"", 0⟩, ⟨"a", 1⟩, ⟨"a", 2⟩]

/-- A concrete token hash (all bits set) for the ordering counterexample:
the two identical texts get identical all-ones signatures, the tokenless
empty text the all-zeros signature. -/
def c3hash : List Char → Nat := fun _ => 2 ^ 64 - 1


/-! ## `NGramBloomFilter`, `src/filters/dedup/src/decontamination_filter.cpp`

The bit array (`std::vector<bool>`, size `m`) is modelled as a predicate on
indices; `add` and `might_contain` consult the same deterministic seeded
hash family (`std::hash<std::string>` of the item concatenated with the
seed, lines 58-69), which is implementation-defined and therefore a
parameter `H i x` (the hash for seed index `i`).  The history of mutations
is a list of operations. -/

/-- A mutation of an `NGramBloomFilter`: `add` (lines 37-42) or `clear`
(lines 54-56). -/
inductive BloomOp where
  | add (x : String)
  | clear
deriving DecidableEq, Repr

/-- `NGramBloomFilter::hash` (lines 58-69): the `k` seeded hash values of
an item. -/
def bloomHashes (H : Nat → String → Nat) (k : Nat) (x : String) : List Nat :=
  (List.range k).map (fun i => H i x)

/-- `NGramBloomFilter::add` (lines 37-42): set the bit `hash mod m` for
each of the `k` hash values. -/
def bloomAdd (H : Nat → String → Nat) (k m : Nat) (x : String)
    (bits : Nat → Bool) : Nat → Bool :=
  fun j => bits j || (bloomHashes H k x).any (fun hv => hv % m == j)

/-- `NGramBloomFilter::might_contain` (lines 44-52): all `k` bits set. -/
def bloomMightContain (H : Nat → String → Nat) (k m : Nat)
    (bits : Nat → Bool) (x : String) : Bool :=
  (bloomHashes H k x).all (fun hv => bits (hv % m))

/-- The all-false bit array the constructor builds (line 22), also the
result of `clear`. -/
def bloomInit : Nat → Bool := fun _ => false

/-- Replay a history of `add`/`clear` operations on a bit array. -/
def bloomRun (H : Nat → String → Nat) (k m : Nat) :
    (Nat → Bool) → List BloomOp → (Nat → Bool)
  | bits, [] => bits
  | bits, BloomOp.add x :: ops => bloomRun H k m (bloomAdd H k m x bits) ops
  | _bits, BloomOp.clear :: ops => bloomRun H k m bloomInit ops

/-- A concrete deterministic stand-in for the seeded `std::hash` family,
used to instantiate the Bloom-filter witness. -/
def c4H : Nat → String → Nat := fun i x => i * 31 + x.length


/-! ## Benchmark decontamination,
`src/filters/dedup/src/decontamination_filter.cpp`

`DecontaminationFilter` state is its config, the benchmark n-gram set (an
`unordered_set`, queried by membership only), the n-gram-to-dataset map, an
optional Bloom pre-filter (modelled as an arbitrary membership predicate —
the claims hold for every behaviour of it) and the common-phrase set. -/

/-- `std::ispunct` in the default C locale (ASCII punctuation). -/
def isPunctC (c : Char) : Bool :=
  (33 ≤ c.toNat && c.toNat ≤ 47) || (58 ≤ c.toNat && c.toNat ≤ 64) ||
    (91 ≤ c.toNat && c.toNat ≤ 96) || (123 ≤ c.toNat && c.toNat ≤ 126)

/-- `DecontaminationConfig` (`decontamination_filter.hpp`, lines 51-92),
the fields the assessment path reads, with the header defaults. -/
structure DecontaminationConfig where
  ngram_size : Nat := 13
  contamination_threshold : ℚ := 1/10
  min_matches_to_reject : Nat := 1
  max_matches_per_document : Nat := 100
  normalize_whitespace : Bool := true
  case_insensitive : Bool := false
  remove_punctuation : Bool := false
  tokenize_before_ngrams : Bool := true
  exclude_common_phrases : Bool := true
deriving Repr

/-- `ContaminationMatch` (`decontamination_filter.hpp`, lines 20-33), the
fields `find_contaminated_ngrams` fills. -/
structure CMatch where
  ngram : String
  position_in_document : Nat
  source_dataset : String
deriving DecidableEq, Repr

/-- The `DecontaminationFilter` state. -/
structure DecontFilter where
  config : DecontaminationConfig
  benchmark : List String
  ngramToDataset : List (String × String)
  bloom : Option (String → Bool)
  commonPhrases : List String

/-- `DecontaminationFilter::preprocess_text` (lines 357-374): optionally
collapse whitespace runs, lowercase, and strip punctuation, in that order. -/
def decontPreprocess (cfg : DecontaminationConfig) (text : List Char) : List Char :=
  let r1 := if cfg.normalize_whitespace then collapseWs false text else text
  let r2 := if cfg.case_insensitive then r1.map toLowerC else r1
  if cfg.remove_punctuation then r2.filter (fun c => !isPunctC c) else r2

/-- `DecontaminationFilter::tokenize` (lines 376-386): `istringstream`
extraction, i.e. the maximal non-whitespace runs. -/
def splitWsAux : List Char → List Char → List (List Char)
  | [], acc => if acc.isEmpty then [] else [acc.reverse]
  | c :: cs, acc =>
    if isSpaceC c then
      if acc.isEmpty then splitWsAux cs [] else acc.reverse :: splitWsAux cs []
    else splitWsAux cs (c :: acc)

/-- `DecontaminationFilter::normalize_ngram` (lines 388-396): trim the
character set " \t\n\r" from both ends. -/
def normalizeNgram (l : List Char) : List Char :=
  trimBy (fun c => c = ' ' || c = '\t' || c = '\n' || c = '\r') l

/-- `DecontaminationFilter::extract_ngrams` (lines 250-280): word n-grams
(tokens joined by single spaces) or character n-grams of the preprocessed
text; empty when there are fewer than `n` tokens (resp. characters). -/
def extract_ngrams (cfg : DecontaminationConfig) (text : List Char) (n0 : Nat) :
    List String :=
  let n := if n0 = 0 then cfg.ngram_size else n0
  let processed := decontPreprocess cfg text
  if cfg.tokenize_before_ngrams then
    let tokens := splitWsAux processed []
    if tokens.length < n then []
    else
      (List.range (tokens.length - n + 1)).map (fun i =>
        ⟨normalizeNgram (List.intercalate [' '] ((tokens.drop i).take n))⟩)
  else
    if processed.length < n then []
    else
      (List.range (processed.length - n + 1)).map (fun i =>
        ⟨normalizeNgram ((processed.drop i).take n)⟩)

/-- The `ngram_to_dataset_.count ? .at : "unknown"` lookup of
`find_contaminated_ngrams` (lines 304-305). -/
def lookupDataset (l : List (String × String)) (g : String) : String :=
  match l.find? (fun p => p.1 == g) with
  | some p => p.2
  | none => "unknown"

/-- The match loop of `DecontaminationFilter::find_contaminated_ngrams`
(lines 286-313): skip common phrases (when configured) and Bloom misses,
record a match for every benchmark hit, and stop once
`max_matches_per_document` matches have been collected. -/
def findContaminatedAux (F : DecontFilter) : List (Nat × String) → Nat → List CMatch
  | [], _ => []
  | (i, g) :: rest, cnt =>
    if F.config.exclude_common_phrases && F.commonPhrases.contains g then
      findContaminatedAux F rest cnt
    else if (match F.bloom with | some mc => !mc g | none => false) then
      findContaminatedAux F rest cnt
    else if F.benchmark.contains g then
      if cnt + 1 ≥ F.config.max_matches_per_document then
        [⟨g, i, lookupDataset F.ngramToDataset g⟩]
      else
        ⟨g, i, lookupDataset F.ngramToDataset g⟩ :: findContaminatedAux F rest (cnt + 1)
    else findContaminatedAux F rest cnt

/-- `DecontaminationFilter::find_contaminated_ngrams` (lines 282-316). -/
def findContaminated (F : DecontFilter) (text : List Char) : List CMatch :=
  findContaminatedAux F (extract_ngrams F.config text F.config.ngram_size).enum 0

/-- `DecontaminationFilter::calculate_contamination_score` (lines 402-406):
`matches.size() / total_ngrams`, `0` when no n-grams were checked.  Exact
in `double` for the claim-relevant magnitudes, modelled in `ℚ`. -/
def calculateContaminationScore (ms : List CMatch) (total : Nat) : ℚ :=
  if total = 0 then 0 else (ms.length : ℚ) / (total : ℚ)

/-- First-occurrence key extraction standing in for the iteration of the
`source_counts` map of `assess_document` (lines 195-204; the C++ iteration
order of the `unordered_map` is unspecified). -/
def uniqueKeysAux : List String → List String → List String
  | [], acc => acc.reverse
  | x :: xs, acc =>
    if acc.contains x then uniqueKeysAux xs acc else uniqueKeysAux xs (x :: acc)

/-- The `most_likely_source` selection of `assess_document` (lines
195-204): the dataset with the strictly greatest match count wins;
`std::max_element` keeps the earlier candidate on ties. -/
def mostLikelySource (ms : List CMatch) : String :=
  let srcs := ms.map CMatch.source_dataset
  match uniqueKeysAux srcs [] with
  | [] => ""
  | k :: ks => ks.foldl (fun best c => if srcs.count best < srcs.count c then c else best) k

/-- `DecontaminationAssessment` (`decontamination_filter.hpp`, lines
36-48; the C++ field `matches` is `matched` here, the word being reserved
in Lean). -/
structure DecontaminationAssessment where
  is_contaminated : Bool
  matched : List CMatch
  contamination_score : ℚ
  total_ngrams_checked : Nat
  contaminated_ngrams : Nat
  most_likely_source : String
deriving Repr

/-- `DecontaminationFilter::assess_document` (lines 169-219; the
memoization cache and the statistics updates return/store the same pure
assessment): count the document n-grams, collect the contaminated matches,
score, and flag exactly when the score reaches the threshold.  The
`min_matches_to_reject` config field is read nowhere in this path. -/
def assess_document (F : DecontFilter) (doc : Document) : DecontaminationAssessment :=
  { is_contaminated :=
      decide (F.config.contamination_threshold ≤
        calculateContaminationScore (findContaminated F doc.text.data)
          (extract_ngrams F.config doc.text.data F.config.ngram_size).length)
    matched := findContaminated F doc.text.data
    contamination_score :=
      calculateContaminationScore (findContaminated F doc.text.data)
        (extract_ngrams F.config doc.text.data F.config.ngram_size).length
    total_ngrams_checked := (extract_ngrams F.config doc.text.data F.config.ngram_size).length
    contaminated_ngrams := (findContaminated F doc.text.data).length
    most_likely_source := mostLikelySource (findContaminated F doc.text.data) }

/-- The concrete configuration of the decontamination counterexample:
word 2-grams, threshold 1/10, `min_matches_to_reject` set to 5. -/
def c5config : DecontaminationConfig :=
  { ngram_size := 2
    contamination_threshold := 1/10
    min_matches_to_reject := 5
    max_matches_per_document := 100
    normalize_whitespace := true
    case_insensitive := false
    remove_punctuation := false
    tokenize_before_ngrams := true
    exclude_common_phrases := false }

/-- The concrete filter of the decontamination counterexample: two
benchmark 2-grams, no Bloom filter (as the default constructor builds). -/
def c5filter : DecontFilter :=
  { config := c5config
    benchmark := ["a b", "f g"]
    ngramToDataset := [("a b", "bench"), ("f g", "bench")]
    bloom := none
    commonPhrases := [] }

/-- The eleven-token document of the decontamination counterexample: ten
2-grams, two of them benchmark hits. -/
def c5doc : Document := ⟨"a b c d e f g h i j k", 0⟩


/-! ## Gibberish filter, `src/filters/quality/src/gibberish_filter.cpp`

The claim under test concerns only the empty-document early return of
`GibberishFilter::evaluate` (lines 48-55), which fires before any metric,
pattern or threshold is computed; the remainder of the evaluation (lines
56-130, heavy floating-point scoring) is abstracted as the function applied
when the text is non-empty. -/

/-- A quality-subsystem document (`quality_common.hpp`, lines 15-30), the
fields the gibberish claim reads (the url/domain/metadata fields do not
influence `evaluate`). -/
structure QDocument where
  id : String
  text : String
deriving DecidableEq, Repr

/-- `FilterResult` of the quality subsystem (`quality_common.hpp`,
lines 33-37). -/
inductive QFilterResult where
  | KEEP
  | REJECT
  | UNKNOWN
deriving DecidableEq, Repr

/-- `RejectionReason` (`quality_common.hpp`, lines 40-51). -/
inductive RejectionReason where
  | TOO_SHORT
  | TOO_LONG
  | GIBBERISH
  | HIGH_REPETITION
  | BOILERPLATE
  | POOR_FORMATTING
  | MACHINE_GENERATED
  | SUSPICIOUS_URL
  | INVALID_METADATA
  | CUSTOM
deriving DecidableEq, Repr

/-- `FilterDecision` (`quality_common.hpp`, lines 54-66): result, reason,
confidence, details and the metric map (association list in insertion
order). -/
structure QFilterDecision where
  result : QFilterResult
  reason : RejectionReason
  confidence : ℚ
  details : String
  metrics : List (String × ℚ)
deriving DecidableEq, Repr

/-- `GibberishFilter::evaluate` (lines 48-55 and onward): the decision is
initialized to `(KEEP, CUSTOM, 1.0, "")` with empty metrics; an empty text
sets the details to "Empty document" and returns at once; otherwise the
rest of the evaluation (abstracted as `evalNonEmpty`) runs. -/
def gibberishEvaluate (evalNonEmpty : QDocument → QFilterDecision)
    (doc : QDocument) : QFilterDecision :=
  if doc.text = "" then
    { result := QFilterResult.KEEP
      reason := RejectionReason.CUSTOM
      confidence := 1
      details := "Empty document"
      metrics := [] }
  else evalNonEmpty doc

/-- A concrete non-empty-branch evaluator (rejecting) for the gibberish
witness, showing the early return ignores it. -/
def c10rest : QDocument → QFilterDecision :=
  fun _ => ⟨QFilterResult.REJECT, RejectionReason.GIBBERISH, 0, "", []⟩

/-! ## PII filter, `src/filters/content/src/pii_filter.cpp`

`PIIFilter::compile_patterns` (lines 22-68) builds the phone regex from
what was intended as two concatenated raw string literals (lines 31-32).
The first literal, `R"(...\b|"`, contains no `)"` terminator on its line,
so the C++ lexer continues the raw string across the newline and through
the `R"(` of the second line; the literal only ends at the `\b)"` at the
end of line 32.  `phonePatternSource` below is the exact character content
the compiler hands to `std::regex`; it contains a stray `"`, a newline,
the text `R"` and an unmatched `(` opening a group that is never closed.
ECMAScript grammar requires group parentheses to balance, so the `std::regex`
constructor must throw `std::regex_error` and `PIIFilter` can never be
constructed.  A small scanner checks group-parenthesis balance (escapes and
character classes respected). -/

/-- Group-parenthesis scanner for an ECMAScript pattern: `esc` marks a
pending backslash escape, `inCl` a character class, `d` the running depth
of unmatched `(`. -/
def parenScan : List Char → Bool → Bool → Int → Int
  | [], _, _, d => d
  | c :: cs, esc, inCl, d =>
    if esc then parenScan cs false inCl d
    else if c = '\\' then parenScan cs true inCl d
    else if inCl then
      if c = ']' then parenScan cs false false d else parenScan cs false true d
    else if c = '[' then parenScan cs false true d
    else if c = '(' then parenScan cs false false (d + 1)
    else if c = ')' then parenScan cs false false (d - 1)
    else parenScan cs false false d

/-- Net group-parenthesis balance of a regex pattern; a wellformed
ECMAScript pattern has balance 0 (and never goes negative). -/
def regexGroupBalance (s : String) : Int := parenScan s.data false false 0

/-- The phone pattern as the C++ lexer actually delivers it to
`std::regex` (`pii_filter.cpp`, lines 30-34): one raw string literal
spanning both lines, including the stray quote, newline, `R"` and the
unmatched `(`. -/
def phonePatternSource : String :=
  "\\b(?:\\+?1[-.\\s]?)?\\(?([0-9]{3})\\)?[-.\\s]?([0-9]{3})[-.\\s]?([0-9]{4})\\b|\"\n        R\"(\\b\\d{3}-\\d{3}-\\d{4}\\b|\\b\\(\\d{3}\\)\\s?\\d{3}-\\d{4}\\b"

/-- The phone pattern the two raw literals were evidently intended to
concatenate to (three alternatives, groups balanced). -/
def phonePatternIntended : String :=
  "\\b(?:\\+?1[-.\\s]?)?\\(?([0-9]{3})\\)?[-.\\s]?([0-9]{3})[-.\\s]?([0-9]{4})\\b|\\b\\d{3}-\\d{3}-\\d{4}\\b|\\b\\(\\d{3}\\)\\s?\\d{3}-\\d{4}\\b"

/-- `std::string::replace(start, len, rep)` on a character list. -/
def replaceRange (s : List Char) (start len : Nat) (rep : List Char) : List Char :=
  s.take start ++ rep ++ s.drop (start + len)

/-- The replacement loop of `PIIFilter::sanitize_text` (lines 233-247):
apply the `(start, end, replacement)` records of the position-sorted match
list in reverse order, so earlier offsets stay valid. -/
def sanitizeApply (ms : List (Nat × Nat × List Char)) (s : List Char) : List Char :=
  ms.reverse.foldl (fun acc m => replaceRange acc m.1 (m.2.1 - m.1) m.2.2) s

/-! ## Quality text utilities, `src/filters/quality/src/utils.cpp`

`TextUtils::strip_html` (lines 71-92): remove regex matches of the tag
pattern, decode the five entities in source order (amp, lt, gt, quot,
nbsp — each a plain `std::regex_replace` over the whole string, scanning
left to right and never rescanning replacement text), then normalize
whitespace.  `TextUtils::normalize_whitespace` (lines 46-69) collapses
whitespace runs to single spaces and trims spaces from both ends.  Tag
removal (the pattern matching a literal less-than, a run of non-greater
characters, and a greater-than) is the one-pass scanner below: a
less-than starts buffering, a greater-than discards the buffered tag, and
a buffer still open at the end of input is emitted verbatim (the regex
matches nothing there, no closing character remaining). -/

/-- `TextUtils::normalize_whitespace` (quality `utils.cpp`, lines 46-69):
collapse whitespace runs to single spaces, then trim the space character
from both ends. -/
def normalizeWhitespaceQ (s : List Char) : List Char :=
  trimBy (fun c => c == ' ') (collapseWs false s)

/-- One-pass scanner for the tag-removal `regex_replace` of `strip_html`
(line 72-73): the second argument buffers the inside of an open tag
(reversed), `none` meaning no tag is open. -/
def removeTagsAux : List Char → Option (List Char) → List Char
  | [], none => []
  | [], some buf => '<' :: buf.reverse
  | c :: cs, none =>
    if c = '<' then removeTagsAux cs (some [])
    else c :: removeTagsAux cs none
  | c :: cs, some buf =>
    if c = '>' then removeTagsAux cs none
    else removeTagsAux cs (some (c :: buf))

/-- Tag removal of `TextUtils::strip_html` (lines 72-73). -/
def removeTags (s : List Char) : List Char := removeTagsAux s none

/-- `std::regex_replace` with a literal pattern `p :: ps` and replacement
`rep`: scan left to right, replace each non-overlapping occurrence, never
rescan the replacement.  Structural fuel (one unit per character) keeps
the definition executable; the initial fuel `s.length` always suffices. -/
def replaceEntAux (p : Char) (ps rep : List Char) : Nat → List Char → List Char
  | 0, s => s
  | _ + 1, [] => []
  | fuel + 1, c :: cs =>
    if c = p && ps.isPrefixOf cs then
      rep ++ replaceEntAux p ps rep fuel (cs.drop ps.length)
    else c :: replaceEntAux p ps rep fuel cs

/-- One entity-decoding `regex_replace` of `strip_html` (lines 76-89). -/
def replaceEnt (p : Char) (ps rep s : List Char) : List Char :=
  replaceEntAux p ps rep s.length s

/-- `TextUtils::strip_html` (quality `utils.cpp`, lines 71-92): remove
tags, decode the entities in source order, normalize whitespace. -/
def strip_html (s : List Char) : List Char :=
  normalizeWhitespaceQ
    (replaceEnt '&' "nbsp;".data " ".data
      (replaceEnt '&' "quot;".data "\"".data
        (replaceEnt '&' "gt;".data ">".data
          (replaceEnt '&' "lt;".data "<".data
            (replaceEnt '&' "amp;".data "&".data (removeTags s))))))

/-- No two adjacent space characters: the relation whose `Chain'` closure
characterizes whitespace-collapsed text. -/
def spacedApart (a b : Char) : Prop := ¬(a = ' ' ∧ b = ' ')

end RapidSift

namespace RapidSift

/-! # Theorems -/

/-- C1: under the default exact-dedup configuration (`keep_first = true`),
deduplicating the six documents with texts A,B,A,C,B,A yields the unique
documents A,B,C in that order, exactly two duplicate groups — indices
`[0,2,5]` (the three copies of A) and `[1,4]` (the two copies of B) — and a
reduction percentage of exactly 50.  The text hash is any function that
separates the three distinct texts, as the external 64-bit hashes do. -/
theorem exact_dedup_scenario (h : String → Nat)
    (hab : h "A" ≠ h "B") (hac : h "A" ≠ h "C") (hbc : h "B" ≠ h "C") :
    (deduplicate h true c1docs).uniqueDocuments.map Document.text = ["A", "B", "C"] ∧
    (deduplicate h true c1docs).duplicateGroups.length = 2 ∧
    [0, 2, 5] ∈ (deduplicate h true c1docs).duplicateGroups ∧
    [1, 4] ∈ (deduplicate h true c1docs).duplicateGroups ∧
    (deduplicate h true c1docs).reductionPercentage = 50 := by
  have hba := Ne.symm hab
  have hca := Ne.symm hac
  have hcb := Ne.symm hbc
  simp [deduplicate, c1docs, groupByHash, insertGroup, selectUniqueDocuments,
    List.enum, List.enumFrom, List.foldl,
    List.insertionSort, List.orderedInsert, hab, hac, hbc, hba, hca, hcb,
    DeduplicationResult.reductionPercentage, DeduplicationResult.duplicatesRemoved,
    DeduplicationResult.uniqueCount]
  norm_num

/-- C1 witness: the scenario evaluated at a concrete separating hash. -/
theorem exact_dedup_scenario_witness :
    (c1hash "A" ≠ c1hash "B") ∧ (c1hash "A" ≠ c1hash "C") ∧ (c1hash "B" ≠ c1hash "C") ∧
    ((deduplicate c1hash true c1docs).uniqueDocuments.map Document.text = ["A", "B", "C"] ∧
     (deduplicate c1hash true c1docs).duplicateGroups.length = 2 ∧
     [0, 2, 5] ∈ (deduplicate c1hash true c1docs).duplicateGroups ∧
     [1, 4] ∈ (deduplicate c1hash true c1docs).duplicateGroups ∧
     (deduplicate c1hash true c1docs).reductionPercentage = 50) :=
  ⟨by decide, by decide, by decide,
    exact_dedup_scenario c1hash (by decide) (by decide) (by decide)⟩

/-- C2: the code cannot compute the claimed hash — `hash_utils::xxhash64`
is an unconditional self-call, so under the fuel semantics no call depth
returns a value, and `compute_hash` with the (default) `XXHASH64` algorithm
never returns either, for every input text and every behaviour of the
external digest routines. -/
theorem xxhash64_never_terminates :
    ∀ (fuel : Nat) (s : String) (md5 sha1 sha256 : String → Nat),
      xxhash64Fuel fuel s = none ∧
      computeHashFuel md5 sha1 sha256 fuel HashAlgorithm.XXHASH64 s = none := by
  intro fuel
  induction fuel with
  | zero => intro s _ _ _; exact ⟨rfl, rfl⟩
  | succ n ih =>
      intro s md5 sha1 sha256
      have h := ih s md5 sha1 sha256
      exact ⟨h.1, h.1⟩

/-- C7 counterexample: on the two-character input ab with n = 3 (fewer
characters than the window), `generate_ngrams` returns the one-element list
holding the whole text, not the empty sequence the claim states. -/
theorem generate_ngrams_short_not_empty :
    "ab".data.length < 3 ∧
    generate_ngrams "ab".data 3 = ["ab".data] ∧
    generate_ngrams "ab".data 3 ≠ ([] : List (List Char)) ∧
    nearGenerateNgrams "ab".data 3 ≠ ([] : List (List Char)) := by
  decide

/-- C7 amended: whenever the normalized input is shorter than `n`, both
`generate_ngrams` implementations return the singleton list holding the
whole normalized text (rather than the empty sequence). -/
theorem generate_ngrams_short (s : List Char) (n : Nat)
    (hn : (normalize_text s).length < n) :
    generate_ngrams s n = [normalize_text s] ∧
    nearGenerateNgrams s n = [normalize_text s] := by
  constructor <;> simp [generate_ngrams, nearGenerateNgrams, hn]

/-- C7 amended witness: the singleton behaviour at the concrete short input. -/
theorem generate_ngrams_short_witness :
    (normalize_text "ab".data).length < 3 ∧
    (generate_ngrams "ab".data 3 = [normalize_text "ab".data] ∧
     nearGenerateNgrams "ab".data 3 = [normalize_text "ab".data]) :=
  ⟨by decide, generate_ngrams_short "ab".data 3 (by decide)⟩


/-! ## Helper lemmas for the SimHash grouping pass -/

/-- Every member of every emitted similarity group avoids the processed set
the pass was entered with. -/
theorem sgf_avoid (sigs : List Nat) (thr : Nat) :
    ∀ (is proc : List Nat), ∀ g ∈ simGroupsFold sigs thr is proc, ∀ x ∈ g, x ∉ proc := by
  intro is
  induction is with
  | nil => intro proc g hg; simp [simGroupsFold] at hg
  | cons i rest ih =>
    intro proc g hg x hx
    by_cases hip : i ∈ proc
    · rw [simGroupsFold, if_pos hip] at hg
      exact ih proc g hg x hx
    · rw [simGroupsFold, if_neg hip] at hg
      set similar := i :: rest.filter (fun j =>
        !decide (j ∈ proc) &&
          decide (hammingDistance (sigs.getD i 0) (sigs.getD j 0) ≤ thr)) with hsim
      by_cases hlen : similar.length > 1
      · rw [if_pos hlen, List.mem_cons] at hg
        rcases hg with hg | hg
        · subst hg
          rw [hsim, List.mem_cons] at hx
          rcases hx with hx | hx
          · exact hx ▸ hip
          · have := List.of_mem_filter hx
            simp at this
            exact this.1
        · have h2 := ih (proc ++ similar) g hg x hx
          intro hc
          exact h2 (List.mem_append_left _ hc)
      · rw [if_neg hlen] at hg
        have h2 := ih (proc ++ similar) g hg x hx
        intro hc
        exact h2 (List.mem_append_left _ hc)

/-- The emitted similarity groups are pairwise disjoint. -/
theorem sgf_disjoint (sigs : List Nat) (thr : Nat) :
    ∀ (is proc : List Nat),
      (simGroupsFold sigs thr is proc).Pairwise (fun g g2 => ∀ x ∈ g, x ∉ g2) := by
  intro is
  induction is with
  | nil => intro proc; simp [simGroupsFold]
  | cons i rest ih =>
    intro proc
    by_cases hip : i ∈ proc
    · rw [simGroupsFold, if_pos hip]; exact ih proc
    · rw [simGroupsFold, if_neg hip]
      set similar := i :: rest.filter (fun j =>
        !decide (j ∈ proc) &&
          decide (hammingDistance (sigs.getD i 0) (sigs.getD j 0) ≤ thr)) with hsim
      by_cases hlen : similar.length > 1
      · rw [if_pos hlen]
        refine List.Pairwise.cons ?_ (ih (proc ++ similar))
        intro g hg x hxs hxg
        exact sgf_avoid sigs thr rest (proc ++ similar) g hg x hxg
          (List.mem_append_right _ hxs)
      · rw [if_neg hlen]; exact ih (proc ++ similar)

/-- Every emitted group is its least index consed onto strictly larger
indices, provided the scanned index list is strictly sorted (as
`List.range` is): the representative in front is the first occurrence. -/
theorem sgf_head_least (sigs : List Nat) (thr : Nat) :
    ∀ (is proc : List Nat), is.Sorted (· < ·) →
      ∀ g ∈ simGroupsFold sigs thr is proc,
        ∃ i t, g = i :: t ∧ ∀ j ∈ t, i < j := by
  intro is
  induction is with
  | nil => intro proc _ g hg; simp [simGroupsFold] at hg
  | cons i rest ih =>
    intro proc hsort g hg
    have hrest : rest.Sorted (· < ·) := hsort.of_cons
    by_cases hip : i ∈ proc
    · rw [simGroupsFold, if_pos hip] at hg
      exact ih proc hrest g hg
    · rw [simGroupsFold, if_neg hip] at hg
      set similar := i :: rest.filter (fun j =>
        !decide (j ∈ proc) &&
          decide (hammingDistance (sigs.getD i 0) (sigs.getD j 0) ≤ thr)) with hsim
      by_cases hlen : similar.length > 1
      · rw [if_pos hlen, List.mem_cons] at hg
        rcases hg with hg | hg
        · refine ⟨i, _, hg.trans hsim, ?_⟩
          intro j hj
          have hj2 : j ∈ rest := List.mem_of_mem_filter hj
          exact (List.sorted_cons.mp hsort).1 j hj2
        · exact ih (proc ++ similar) hrest g hg
      · rw [if_neg hlen] at hg
        exact ih (proc ++ similar) hrest g hg

/-- Membership in the processed set accumulated by folding append. -/
theorem mem_foldl_append (x : Nat) :
    ∀ (l : List (List Nat)) (acc : List Nat),
      x ∈ l.foldl (· ++ ·) acc ↔ x ∈ acc ∨ ∃ b ∈ l, x ∈ b := by
  intro l
  induction l with
  | nil => intro acc; simp
  | cons a as ih =>
    intro acc
    rw [List.foldl_cons, ih]
    simp [List.mem_append]
    tauto

/-- The head of a group occurs exactly once among the heads of a pairwise
disjoint family of groups. -/
theorem count_heads_eq_one (i : Nat) (g : List Nat) (groups : List (List Nat))
    (hpw : groups.Pairwise (fun a b => ∀ x ∈ a, x ∉ b))
    (hg : g ∈ groups) (hi : i ∈ g) (hhead : g.head? = some i) :
    (groups.filterMap List.head?).count i = 1 := by
  induction groups with
  | nil => simp at hg
  | cons a as ih =>
    rw [List.mem_cons] at hg
    rcases hg with hg | hg
    · subst hg
      rw [List.filterMap_cons, hhead]
      rw [List.count_cons_self]
      have hnot : i ∉ as.filterMap List.head? := by
        intro hmem
        rcases List.mem_filterMap.mp hmem with ⟨b, hb, hhb⟩
        have hib : i ∈ b := List.mem_of_mem_head? hhb
        exact (List.pairwise_cons.mp hpw).1 b hb i hi hib
      rw [List.count_eq_zero.mpr hnot]
    · rw [List.filterMap_cons]
      have hpw2 := (List.pairwise_cons.mp hpw).2
      cases ha : a.head? with
      | none => exact ih hpw2 hg
      | some x =>
        have hxa : x ∈ a := List.mem_of_mem_head? ha
        have hxg : x ∉ g := (List.pairwise_cons.mp hpw).1 g hg x hxa
        have hxi : x ≠ i := fun hc => hxg (hc ▸ hi)
        rw [List.count_cons_of_ne (Ne.symm hxi)]
        exact ih hpw2 hg

/-- A non-head member of a group never occurs among the heads of a pairwise
disjoint family of groups. -/
theorem not_mem_heads (j : Nat) (g : List Nat) (groups : List (List Nat))
    (hpw : groups.Pairwise (fun a b => ∀ x ∈ a, x ∉ b))
    (hg : g ∈ groups) (hj : j ∈ g) (hne : g.head? ≠ some j) :
    j ∉ groups.filterMap List.head? := by
  intro hmem
  rcases List.mem_filterMap.mp hmem with ⟨b, hb, hhb⟩
  have hjb : j ∈ b := List.mem_of_mem_head? hhb
  by_cases hbg : b = g
  · exact hne (hbg ▸ hhb)
  · have hsymm : Symmetric (fun a b : List Nat => ∀ x ∈ a, x ∉ b) := by
      intro a b hab x hxb hxa
      exact hab x hxa hxb
    have := List.Pairwise.forall hsymm hpw hb hg hbg
    exact this j hjb hj

/-- C3 counterexample: the SimHash near-dedup of three documents — an empty
text followed by two identical texts — emits original indices `[1, 0]`:
the group representative (index 1) precedes the ungrouped document
(index 0), so the unique documents are NOT in input order. -/
theorem near_dedup_not_input_order :
    (deduplicateSimhash c3hash 64 (4 / 5) c3docs).originalIndices = [1, 0] ∧
    ¬ (deduplicateSimhash c3hash 64 (4 / 5) c3docs).originalIndices.Sorted (· ≤ ·) := by
  have hthr : hammingThreshold (4 / 5) 64 = 12 := by
    have h1 : ((1 : ℚ) - 4 / 5) * (64 : Nat) = 64 / 5 := by push_cast; ring
    have h2 : (⌊(64 : ℚ) / 5⌋ : ℤ) = 12 := by norm_num
    rw [hammingThreshold, h1, h2]
    rfl
  constructor
  · simp only [deduplicateSimhash, hthr]
    decide
  · simp only [deduplicateSimhash, hthr]
    decide

/-- C3 amended: in the SimHash variant, every similarity group consists of
its first-occurring member (the smallest input index) followed by strictly
later indices, and exactly that first member survives into the unique
output — it occurs exactly once among the emitted original indices while
every other group member occurs zero times.  Global input order of the
output does not hold (see the counterexample); representatives are emitted
first, then the ungrouped documents in input order. -/
theorem near_dedup_simhash_keeps_first (h : List Char → Nat) (bits : Nat)
    (threshold : ℚ) (docs : List Document) :
    ∀ g ∈ (deduplicateSimhash h bits threshold docs).duplicateGroups,
      ∃ i t, g = i :: t ∧ (∀ j ∈ t, i < j) ∧
        (deduplicateSimhash h bits threshold docs).originalIndices.count i = 1 ∧
        ∀ j ∈ t, (deduplicateSimhash h bits threshold docs).originalIndices.count j = 0 := by
  intro g hg
  by_cases hemp : docs.isEmpty
  · rw [deduplicateSimhash, if_pos hemp] at hg
    simp [DeduplicationResult.duplicateGroups] at hg
  · have hd : deduplicateSimhash h bits threshold docs =
        dedupFromGroups docs
          (findSimilarGroupsSimhash
            (docs.map (fun d => simhashCompute h bits d.text.data))
            (hammingThreshold threshold bits)) := by
      rw [deduplicateSimhash, if_neg hemp]
    set sigs := docs.map (fun d => simhashCompute h bits d.text.data) with hsigs
    set thr := hammingThreshold threshold bits with hthr
    set groups := findSimilarGroupsSimhash sigs thr with hgroups
    rw [hd] at hg ⊢
    have hdup : (dedupFromGroups docs groups).duplicateGroups =
        groups.filter (fun g => !g.isEmpty) := rfl
    have hidx : (dedupFromGroups docs groups).originalIndices =
        groups.filterMap List.head? ++
          (List.range docs.length).filter
            (fun i => !decide (i ∈ groups.foldl (· ++ ·) [])) := rfl
    rw [hdup] at hg
    have hgmem : g ∈ groups := List.mem_of_mem_filter hg
    have hrange : (List.range sigs.length).Sorted (· < ·) := List.pairwise_lt_range _
    have hgmem2 : g ∈ simGroupsFold sigs thr (List.range sigs.length) [] := by
      rw [hgroups, findSimilarGroupsSimhash] at hgmem
      exact hgmem
    obtain ⟨i, t, hgit, hlt⟩ :=
      sgf_head_least sigs thr (List.range sigs.length) [] hrange g hgmem2
    have hpw : groups.Pairwise (fun a b => ∀ x ∈ a, x ∉ b) := by
      rw [hgroups, findSimilarGroupsSimhash]
      exact sgf_disjoint sigs thr (List.range sigs.length) []
    have hmem_grouped : ∀ x ∈ g, x ∈ groups.foldl (· ++ ·) [] := by
      intro x hx
      exact (mem_foldl_append x groups []).mpr (Or.inr ⟨g, hgmem, hx⟩)
    have hnotrest : ∀ x ∈ g,
        x ∉ (List.range docs.length).filter
          (fun i => !decide (i ∈ groups.foldl (· ++ ·) [])) := by
      intro x hx hmem
      have := List.of_mem_filter hmem
      simp at this
      exact this (hmem_grouped x hx)
    refine ⟨i, t, hgit, hlt, ?_, ?_⟩
    · rw [hidx, List.count_append]
      have h1 : (groups.filterMap List.head?).count i = 1 :=
        count_heads_eq_one i g groups hpw hgmem (by rw [hgit]; exact List.mem_cons_self i t)
          (by rw [hgit]; rfl)
      have h2 : ((List.range docs.length).filter
          (fun i => !decide (i ∈ groups.foldl (· ++ ·) []))).count i = 0 :=
        List.count_eq_zero.mpr (hnotrest i (by rw [hgit]; exact List.mem_cons_self i t))
      rw [h1, h2]
    · intro j hj
      have hjg : j ∈ g := by rw [hgit]; exact List.mem_cons_of_mem i hj
      rw [hidx, List.count_append]
      have h1 : (groups.filterMap List.head?).count j = 0 := by
        refine List.count_eq_zero.mpr (not_mem_heads j g groups hpw hgmem hjg ?_)
        rw [hgit]
        intro hc
        have : i = j := by
          simpa using hc
        exact absurd (this ▸ hlt j hj) (lt_irrefl j)
      have h2 : ((List.range docs.length).filter
          (fun i => !decide (i ∈ groups.foldl (· ++ ·) []))).count j = 0 :=
        List.count_eq_zero.mpr (hnotrest j hjg)
      rw [h1, h2]

/-- C3 amended witness: the group `[1, 2]` of the concrete batch — its
first member 1 survives exactly once, its other member 2 not at all. -/
theorem near_dedup_simhash_keeps_first_witness :
    ([1, 2] ∈ (deduplicateSimhash c3hash 64 (4 / 5) c3docs).duplicateGroups) ∧
    (∃ i t, ([1, 2] : List Nat) = i :: t ∧ (∀ j ∈ t, i < j) ∧
      (deduplicateSimhash c3hash 64 (4 / 5) c3docs).originalIndices.count i = 1 ∧
      ∀ j ∈ t, (deduplicateSimhash c3hash 64 (4 / 5) c3docs).originalIndices.count j = 0) := by
  have hthr : hammingThreshold (4 / 5) 64 = 12 := by
    have h1 : ((1 : ℚ) - 4 / 5) * (64 : Nat) = 64 / 5 := by push_cast; ring
    have h2 : (⌊(64 : ℚ) / 5⌋ : ℤ) = 12 := by norm_num
    rw [hammingThreshold, h1, h2]
    rfl
  have hmem : [1, 2] ∈ (deduplicateSimhash c3hash 64 (4 / 5) c3docs).duplicateGroups := by
    simp only [deduplicateSimhash, hthr]
    decide
  exact ⟨hmem, near_dedup_simhash_keeps_first c3hash 64 (4 / 5) c3docs [1, 2] hmem⟩

/-- C9: SimHash similarity of two signatures of the same bit width is
symmetric, and the self-similarity of a signature is exactly 1 (the bit
width being positive, as the default 64 is, so the division is defined). -/
theorem simhash_similarity_symm_refl (s t : SimHashSignature)
    (hw : t.numBits = s.numBits) (_hpos : 0 < s.numBits) :
    s.similarity t = t.similarity s ∧ s.similarity s = 1 := by
  have hx : s.hashValue ^^^ t.hashValue = t.hashValue ^^^ s.hashValue :=
    Nat.xor_comm _ _
  constructor
  · simp [SimHashSignature.similarity, SimHashSignature.hamming, hammingDistance, hw, hx]
  · have h0 : s.hamming s = 0 := by
      simp [SimHashSignature.hamming, hammingDistance, Nat.xor_self, popcount64]
    simp [SimHashSignature.similarity, h0]

/-- C9 witness: two concrete 64-bit signatures. -/
theorem simhash_similarity_symm_refl_witness :
    ((⟨64, 5⟩ : SimHashSignature).numBits = (⟨64, 9⟩ : SimHashSignature).numBits ∧
      0 < (⟨64, 9⟩ : SimHashSignature).numBits) ∧
    ((⟨64, 9⟩ : SimHashSignature).similarity ⟨64, 5⟩ =
        (⟨64, 5⟩ : SimHashSignature).similarity ⟨64, 9⟩ ∧
      (⟨64, 9⟩ : SimHashSignature).similarity ⟨64, 9⟩ = 1) :=
  ⟨⟨rfl, by decide⟩, simhash_similarity_symm_refl ⟨64, 9⟩ ⟨64, 5⟩ rfl (by decide)⟩


/-- Set bits persist across any clear-free run: `add` only turns bits on. -/
theorem bloomRun_mono (H : Nat → String → Nat) (k m : Nat) :
    ∀ (ops : List BloomOp), BloomOp.clear ∉ ops →
      ∀ (bits : Nat → Bool) (j : Nat), bits j = true →
        bloomRun H k m bits ops j = true := by
  intro ops
  induction ops with
  | nil => intro _ bits j hj; exact hj
  | cons op rest ih =>
    intro hnc bits j hj
    cases op with
    | add x =>
      have hnc2 : BloomOp.clear ∉ rest := fun hc => hnc (List.mem_cons_of_mem _ hc)
      refine ih hnc2 _ j ?_
      simp [bloomAdd, hj]
    | clear => exact absurd (List.mem_cons_self _ _) hnc

/-- Replaying a concatenated history is replaying the parts in order. -/
theorem bloomRun_append (H : Nat → String → Nat) (k m : Nat) :
    ∀ (pre : List BloomOp) (bits : Nat → Bool) (post : List BloomOp),
      bloomRun H k m bits (pre ++ post) =
        bloomRun H k m (bloomRun H k m bits pre) post := by
  intro pre
  induction pre with
  | nil => intro bits post; rfl
  | cons op rest ih =>
    intro bits post
    cases op with
    | add y => exact ih (bloomAdd H k m y bits) post
    | clear => exact ih bloomInit post

/-- C4: the Bloom filter has no false negatives — after any history in
which `add x` occurs and no `clear` follows it, `might_contain x` returns
true, for every hash family, every hash count `k` and every positive bit
array size `m` (the constructor always produces a positive size, and a zero
size would make the C++ modulus undefined). -/
theorem bloom_no_false_negatives (H : Nat → String → Nat) (k m : Nat)
    (_hm : 0 < m) (x : String) (pre post : List BloomOp)
    (hpost : BloomOp.clear ∉ post) :
    bloomMightContain H k m
      (bloomRun H k m bloomInit (pre ++ BloomOp.add x :: post)) x = true := by
  have hsplit : bloomRun H k m bloomInit (pre ++ BloomOp.add x :: post) =
      bloomRun H k m (bloomAdd H k m x (bloomRun H k m bloomInit pre)) post := by
    rw [bloomRun_append]
    rfl
  rw [hsplit]
  rw [bloomMightContain, List.all_eq_true]
  intro hv hhv
  refine bloomRun_mono H k m post hpost _ _ ?_
  simp [bloomAdd]
  right
  exact ⟨hv, hhv, rfl⟩

/-- C4 witness: a concrete history — an add, a clear, the add of the probed
n-gram, then a further unrelated add — on an 8-bit filter with 2 hashes. -/
theorem bloom_no_false_negatives_witness :
    (0 < 8 ∧ BloomOp.clear ∉ [BloomOp.add "benchmark ngram two"]) ∧
    bloomMightContain c4H 2 8
      (bloomRun c4H 2 8 bloomInit
        ([BloomOp.add "other", BloomOp.clear] ++
          BloomOp.add "an ngram" :: [BloomOp.add "benchmark ngram two"]))
      "an ngram" = true :=
  ⟨⟨by decide, by decide⟩,
    bloom_no_false_negatives c4H 2 8 (by decide) "an ngram"
      [BloomOp.add "other", BloomOp.clear] [BloomOp.add "benchmark ngram two"]
      (by decide)⟩


/-- The match loop records at most one match per scanned n-gram. -/
theorem findContaminatedAux_length (F : DecontFilter) :
    ∀ (l : List (Nat × String)) (cnt : Nat),
      (findContaminatedAux F l cnt).length ≤ l.length := by
  intro l
  induction l with
  | nil => intro cnt; simp [findContaminatedAux]
  | cons p rest ih =>
    intro cnt
    obtain ⟨i, g⟩ := p
    rw [findContaminatedAux]
    split
    · exact (ih cnt).trans (by simp)
    · split
      · exact (ih cnt).trans (by simp)
      · split
        · split
          · simp
          · simpa using ih (cnt + 1)
        · exact (ih cnt).trans (by simp)

/-- C5 amended: for every filter state and every document, the
contamination score is matches / total n-grams checked (0 when none are
checked), lies in [0, 1], and the document is flagged contaminated exactly
when the score reaches the threshold — the `min_matches_to_reject` setting
plays no part. -/
theorem decontamination_score_and_flag (F : DecontFilter) (doc : Document) :
    (assess_document F doc).contamination_score =
      (if (assess_document F doc).total_ngrams_checked = 0 then 0
       else ((assess_document F doc).contaminated_ngrams : ℚ) /
         ((assess_document F doc).total_ngrams_checked : ℚ)) ∧
    0 ≤ (assess_document F doc).contamination_score ∧
    (assess_document F doc).contamination_score ≤ 1 ∧
    ((assess_document F doc).is_contaminated = true ↔
      F.config.contamination_threshold ≤ (assess_document F doc).contamination_score) := by
  have hlen : (findContaminated F doc.text.data).length ≤
      (extract_ngrams F.config doc.text.data F.config.ngram_size).length := by
    have := findContaminatedAux_length F
      (extract_ngrams F.config doc.text.data F.config.ngram_size).enum 0
    simpa [findContaminated] using this
  refine ⟨rfl, ?_, ?_, ?_⟩
  · rw [assess_document]
    simp only [calculateContaminationScore]
    split
    · rfl
    · positivity
  · rw [assess_document]
    simp only [calculateContaminationScore]
    split
    · norm_num
    · rw [div_le_one (by positivity)]
      exact_mod_cast hlen
  · rw [assess_document]
    simp [decide_eq_true_eq]

/-- C5 counterexample: a document with 10 checked 2-grams and 2 matches
under threshold 1/10 and `min_matches_to_reject = 5` — the code flags it
contaminated (score 1/5 reaches the threshold) although the match count is
below the configured minimum, refuting the claimed conjunction. -/
theorem decontamination_min_matches_ignored :
    (assess_document c5filter c5doc).total_ngrams_checked = 10 ∧
    (assess_document c5filter c5doc).contaminated_ngrams = 2 ∧
    c5filter.config.min_matches_to_reject = 5 ∧
    (assess_document c5filter c5doc).is_contaminated = true ∧
    ¬ ((assess_document c5filter c5doc).is_contaminated = true ↔
        (c5filter.config.contamination_threshold ≤
            (assess_document c5filter c5doc).contamination_score ∧
          c5filter.config.min_matches_to_reject ≤
            (assess_document c5filter c5doc).contaminated_ngrams)) := by
  have hng : (extract_ngrams c5filter.config c5doc.text.data
      c5filter.config.ngram_size).length = 10 := by decide
  have hms : (findContaminated c5filter c5doc.text.data).length = 2 := by decide
  have hflag : (assess_document c5filter c5doc).is_contaminated = true := by
    simp only [assess_document]
    rw [decide_eq_true_eq, calculateContaminationScore, hng, hms]
    norm_num [c5filter, c5config]
  have htot : (assess_document c5filter c5doc).total_ngrams_checked = 10 := hng
  have hcn : (assess_document c5filter c5doc).contaminated_ngrams = 2 := hms
  refine ⟨htot, hcn, rfl, hflag, ?_⟩
  intro hiff
  have h2 := (hiff.mp hflag).2
  rw [hcn] at h2
  have h5 : c5filter.config.min_matches_to_reject = 5 := rfl
  rw [h5] at h2
  exact absurd h2 (by norm_num)


/-- C10: the gibberish filter keeps every empty document with confidence 1
— the decision is exactly the initial `(KEEP, CUSTOM, 1.0)` decision with
details "Empty document", no metrics and no violation, whatever the
non-empty branch would do. -/
theorem gibberish_empty_keeps (evalNonEmpty : QDocument → QFilterDecision)
    (doc : QDocument) (h : doc.text = "") :
    gibberishEvaluate evalNonEmpty doc =
      { result := QFilterResult.KEEP
        reason := RejectionReason.CUSTOM
        confidence := 1
        details := "Empty document"
        metrics := [] } := by
  simp [gibberishEvaluate, h]

/-- C10 witness: a concrete empty document against a rejecting non-empty
branch. -/
theorem gibberish_empty_keeps_witness :
    ((⟨"x", ""⟩ : QDocument).text = "") ∧
    gibberishEvaluate c10rest ⟨"x", ""⟩ =
      { result := QFilterResult.KEEP
        reason := RejectionReason.CUSTOM
        confidence := 1
        details := "Empty document"
        metrics := [] } :=
  ⟨rfl, gibberish_empty_keeps c10rest ⟨"x", ""⟩ rfl⟩

set_option maxRecDepth 8192 in
/-- C6: the phone pattern the C++ lexer delivers to `std::regex` has an
unmatched group parenthesis (balance 1, not 0), so constructing the filter
throws and `evaluate` can never run — while the pattern the two raw
literals were intended to form is balanced, and the intended sanitize
replacements on the scenario text do produce
"Contact us at [EMAIL] or [PHONE]." from the email match at offsets
[14, 34) and the phone match at [38, 50). -/
theorem pii_phone_regex_invalid :
    regexGroupBalance phonePatternSource = 1 ∧
    regexGroupBalance phonePatternIntended = 0 ∧
    sanitizeApply
        [(14, 34, "[EMAIL]".data), (38, 50, "[PHONE]".data)]
        "Contact us at john.doe@company.com or 555-123-4567.".data =
      "Contact us at [EMAIL] or [PHONE].".data := by
  refine ⟨by decide, by decide, by decide⟩


/-- C8 counterexample: entity decoding can synthesize a tag that only the
next application strips — one pass maps the literal "&lt;b&gt;" to "<b>",
a second pass maps that to the empty string, so strip_html is not
idempotent. -/
theorem strip_html_cex :
    strip_html "&lt;b&gt;".data = "<b>".data ∧
    strip_html (strip_html "&lt;b&gt;".data) = [] ∧
    strip_html (strip_html "&lt;b&gt;".data) ≠ strip_html "&lt;b&gt;".data := by
  refine ⟨by decide, by decide, by decide⟩


/-- A literal-pattern replacement leaves any text free of the pattern's
first character unchanged, whatever the fuel. -/
theorem replaceEntAux_id (p : Char) (ps rep : List Char) :
    ∀ (fuel : Nat) (s : List Char), p ∉ s → replaceEntAux p ps rep fuel s = s := by
  intro fuel
  induction fuel with
  | zero => intro s _; rfl
  | succ n ih =>
    intro s hp
    cases s with
    | nil => rfl
    | cons c cs =>
      have hc : c ≠ p := fun hc => hp (hc ▸ List.mem_cons_self c cs)
      have hcs : p ∉ cs := fun hm => hp (List.mem_cons_of_mem c hm)
      rw [replaceEntAux]
      rw [if_neg (by simp [hc])]
      rw [ih cs hcs]

/-- Entity replacement is the identity on text without an ampersand
(every entity pattern starts with one). -/
theorem replaceEnt_id (p : Char) (ps rep : List Char) (s : List Char) (hp : p ∉ s) :
    replaceEnt p ps rep s = s :=
  replaceEntAux_id p ps rep s.length s hp

/-- The tag scanner outside a tag leaves text without a less-than
unchanged. -/
theorem removeTagsAux_none_id :
    ∀ (s : List Char), '<' ∉ s → removeTagsAux s none = s := by
  intro s
  induction s with
  | nil => intro _; rfl
  | cons c cs ih =>
    intro hp
    have hc : c ≠ '<' := fun hc => hp (hc ▸ List.mem_cons_self c cs)
    have hcs : '<' ∉ cs := fun hm => hp (List.mem_cons_of_mem c hm)
    rw [removeTagsAux, if_neg hc, ih hcs]

/-- Tag removal is the identity on text without a less-than. -/
theorem removeTags_id (s : List Char) (hp : '<' ∉ s) : removeTags s = s :=
  removeTagsAux_none_id s hp

/-- Every whitespace character surviving the collapse pass is the plain
space it was rewritten to. -/
theorem collapse_space_char :
    ∀ (s : List Char) (b : Bool), ∀ c ∈ collapseWs b s, isSpaceC c = true → c = ' ' := by
  intro s
  induction s with
  | nil => intro b c hc; simp [collapseWs] at hc
  | cons d ds ih =>
    intro b c hc hsp
    rw [collapseWs] at hc
    by_cases hd : isSpaceC d
    · rw [if_pos hd] at hc
      cases b with
      | true => exact ih true c hc hsp
      | false =>
        rw [if_neg Bool.false_ne_true] at hc
        rcases List.mem_cons.mp hc with h | h
        · exact h
        · exact ih true c h hsp
    · rw [if_neg hd] at hc
      rcases List.mem_cons.mp hc with h | h
      · exact absurd (h ▸ hsp) (by simpa using hd)
      · exact ih false c h hsp

/-- Inside a whitespace run the collapse pass never emits a leading
space. -/
theorem collapse_true_head :
    ∀ (s : List Char) (c : Char), (collapseWs true s).head? = some c → c ≠ ' ' := by
  intro s
  induction s with
  | nil => intro c hc; simp [collapseWs] at hc
  | cons d ds ih =>
    intro c hc
    rw [collapseWs] at hc
    by_cases hd : isSpaceC d
    · rw [if_pos hd] at hc
      exact ih c hc
    · rw [if_neg hd] at hc
      simp at hc
      intro hsp
      apply hd
      rw [hc, hsp]
      decide

/-- The collapse pass emits no two adjacent spaces. -/
theorem collapse_chain :
    ∀ (s : List Char) (b : Bool), List.Chain' spacedApart (collapseWs b s) := by
  intro s
  induction s with
  | nil => intro b; simp [collapseWs]
  | cons d ds ih =>
    intro b
    rw [collapseWs]
    by_cases hd : isSpaceC d
    · rw [if_pos hd]
      cases b with
      | true => exact ih true
      | false =>
        rw [if_neg Bool.false_ne_true]
        rw [List.chain'_cons']
        refine ⟨?_, ih true⟩
        intro y hy
        have := collapse_true_head ds y hy
        exact fun hco => this hco.2
    · rw [if_neg hd]
      rw [List.chain'_cons']
      refine ⟨?_, ih false⟩
      intro y _
      intro hco
      rw [hco.1] at hd
      exact hd (by decide)

/-- An adjacency invariant survives dropping a prefix. -/
theorem chain_dropWhile {R : Char → Char → Prop} (p : Char → Bool) :
    ∀ (l : List Char), List.Chain' R l → List.Chain' R (l.dropWhile p) := by
  intro l
  induction l with
  | nil => intro h; exact h
  | cons a l2 ih =>
    intro h
    rw [List.dropWhile_cons]
    by_cases hp : p a
    · rw [if_pos hp]
      exact ih h.tail
    · rw [if_neg hp]
      exact h

/-- The first character surviving `dropWhile` fails the predicate. -/
theorem head_dropWhileP (p : Char → Bool) :
    ∀ (l : List Char) (c : Char), (l.dropWhile p).head? = some c → p c = false := by
  intro l
  induction l with
  | nil => intro c hc; simp at hc
  | cons a l2 ih =>
    intro c hc
    rw [List.dropWhile_cons] at hc
    by_cases hp : p a
    · rw [if_pos hp] at hc
      exact ih c hc
    · rw [if_neg hp] at hc
      simp at hc
      rw [← hc]
      exact Bool.eq_false_iff.mpr hp

/-- Trimming both ends leaves a prefix of the front-trimmed list. -/
theorem trimBy_front (p : Char → Bool) (l : List Char) :
    trimBy p l <+: l.dropWhile p := by
  rw [trimBy]
  have hsuf : (l.dropWhile p).reverse.dropWhile p <:+ (l.dropWhile p).reverse :=
    List.dropWhile_suffix p
  have := List.reverse_prefix.mpr hsuf
  simpa using this

/-- The first character of a trimmed list fails the trim predicate. -/
theorem trim_head (p : Char → Bool) (l : List Char) (c : Char)
    (hc : (trimBy p l).head? = some c) : p c = false := by
  obtain ⟨t, ht⟩ := trimBy_front p l
  cases htr : trimBy p l with
  | nil => rw [htr] at hc; simp at hc
  | cons a as =>
    rw [htr] at hc ht
    simp at hc
    refine head_dropWhileP p l c ?_
    rw [← ht, ← hc]
    rfl

/-- The last character of a trimmed list fails the trim predicate. -/
theorem trim_last (p : Char → Bool) (l : List Char) (c : Char)
    (hc : (trimBy p l).getLast? = some c) : p c = false := by
  rw [trimBy, List.getLast?_reverse] at hc
  exact head_dropWhileP p _ c hc

/-- Trimming is the identity when neither end satisfies the predicate. -/
theorem trim_id (p : Char → Bool) (l : List Char)
    (hhead : ∀ c, l.head? = some c → p c = false)
    (hlast : ∀ c, l.getLast? = some c → p c = false) :
    trimBy p l = l := by
  have h1 : l.dropWhile p = l := by
    cases l with
    | nil => rfl
    | cons a as =>
      rw [List.dropWhile_cons, if_neg]
      rw [hhead a rfl]
      simp
  have h2 : l.reverse.dropWhile p = l.reverse := by
    cases hrev : l.reverse with
    | nil => rfl
    | cons b bs =>
      rw [List.dropWhile_cons, if_neg]
      have hb : l.getLast? = some b := by
        rw [← List.head?_reverse, hrev]
        rfl
      rw [hlast b hb]
      simp
  rw [trimBy, h1, h2, List.reverse_reverse]

/-- Characters of the trimmed list come from the original. -/
theorem mem_trimBy (p : Char → Bool) (l : List Char) (c : Char)
    (hc : c ∈ trimBy p l) : c ∈ l := by
  rw [trimBy, List.mem_reverse] at hc
  have h1 := (List.dropWhile_sublist (l := (l.dropWhile p).reverse) p).subset hc
  rw [List.mem_reverse] at h1
  exact (List.dropWhile_sublist p).subset h1

/-- The no-two-adjacent-spaces invariant survives trimming. -/
theorem chain_trimBy (p : Char → Bool) (l : List Char)
    (h : List.Chain' spacedApart l) : List.Chain' spacedApart (trimBy p l) := by
  have hsymm : ∀ a b : Char, spacedApart a b → spacedApart b a := by
    intro a b hab hco
    exact hab ⟨hco.2, hco.1⟩
  have h1 : List.Chain' spacedApart (l.dropWhile p) := chain_dropWhile p l h
  have h2 : List.Chain' spacedApart (l.dropWhile p).reverse := by
    rw [List.chain'_reverse]
    exact h1.imp hsymm
  have h3 : List.Chain' spacedApart ((l.dropWhile p).reverse.dropWhile p) :=
    chain_dropWhile p _ h2
  rw [trimBy, List.chain'_reverse]
  exact h3.imp hsymm

/-- The collapse pass is the identity on text whose spaces are all plain
and never adjacent (the `true`-state variant additionally requires no
leading space). -/
theorem collapse_id : ∀ (t : List Char),
    (∀ c ∈ t, isSpaceC c = true → c = ' ') → List.Chain' spacedApart t →
    collapseWs false t = t ∧
      ((∀ c, t.head? = some c → c ≠ ' ') → collapseWs true t = t) := by
  intro t
  induction t with
  | nil => intro _ _; exact ⟨rfl, fun _ => rfl⟩
  | cons c cs ih =>
    intro hsp hch
    have hsp2 : ∀ x ∈ cs, isSpaceC x = true → x = ' ' :=
      fun x hx => hsp x (List.mem_cons_of_mem c hx)
    have hch2 : List.Chain' spacedApart cs := hch.tail
    have ihcs := ih hsp2 hch2
    by_cases hc : c = ' '
    · subst hc
      have hhd : ∀ x, cs.head? = some x → x ≠ ' ' := by
        intro x hx hxs
        have := (List.chain'_cons'.mp hch).1 x hx
        exact this ⟨rfl, hxs⟩
      have htrue : collapseWs true cs = cs := ihcs.2 hhd
      constructor
      · rw [collapseWs, if_pos (by decide), if_neg Bool.false_ne_true, htrue]
      · intro hh
        exact absurd rfl (hh ' ' rfl)
    · have hcsp : isSpaceC c = false := by
        cases hx : isSpaceC c with
        | false => rfl
        | true => exact absurd (hsp c (List.mem_cons_self c cs) hx) hc
      constructor
      · rw [collapseWs, if_neg (by rw [hcsp]; simp), ihcs.1]
      · intro _
        rw [collapseWs, if_neg (by rw [hcsp]; simp), ihcs.1]

/-- `TextUtils::normalize_whitespace` is idempotent. -/
theorem normalizeWhitespaceQ_idem (u : List Char) :
    normalizeWhitespaceQ (normalizeWhitespaceQ u) = normalizeWhitespaceQ u := by
  set t := normalizeWhitespaceQ u with ht
  have hsp_t : ∀ c ∈ t, isSpaceC c = true → c = ' ' := by
    intro c hc
    rw [ht, normalizeWhitespaceQ] at hc
    exact collapse_space_char u false c (mem_trimBy _ _ c hc)
  have hch_t : List.Chain' spacedApart t := by
    rw [ht, normalizeWhitespaceQ]
    exact chain_trimBy _ _ (collapse_chain u false)
  have hhead : ∀ c, t.head? = some c → c ≠ ' ' := by
    intro c hc hcs
    have := trim_head (fun c => c == ' ') (collapseWs false u) c (by rw [← hc, ht, normalizeWhitespaceQ])
    rw [hcs] at this
    simp at this
  have hcoll : collapseWs false t = t := (collapse_id t hsp_t hch_t).1
  have hhead2 : ∀ c, t.head? = some c → (fun c => c == ' ') c = false := by
    intro c hc
    have := hhead c hc
    simpa using this
  have hlast2 : ∀ c, t.getLast? = some c → (fun c => c == ' ') c = false := by
    intro c hc
    rw [ht, normalizeWhitespaceQ] at hc
    exact trim_last _ _ c hc
  rw [normalizeWhitespaceQ, hcoll]
  exact trim_id _ t hhead2 hlast2

/-- C8 amended: strip_html is idempotent on every input whose first
application yields text containing neither a less-than character nor an
ampersand — then the second pass removes no tag and decodes no entity, and
whitespace normalization is idempotent.  (In general a second application
can strip further, as the counterexample shows.) -/
theorem strip_html_idem (s : List Char)
    (h1 : '<' ∉ strip_html s) (h2 : '&' ∉ strip_html s) :
    strip_html (strip_html s) = strip_html s := by
  have hrt : removeTags (strip_html s) = strip_html s := removeTags_id _ h1
  have e1 : replaceEnt '&' "amp;".data "&".data (strip_html s) = strip_html s :=
    replaceEnt_id _ _ _ _ h2
  have e2 : replaceEnt '&' "lt;".data "<".data (strip_html s) = strip_html s :=
    replaceEnt_id _ _ _ _ h2
  have e3 : replaceEnt '&' "gt;".data ">".data (strip_html s) = strip_html s :=
    replaceEnt_id _ _ _ _ h2
  have e4 : replaceEnt '&' "quot;".data "\"".data (strip_html s) = strip_html s :=
    replaceEnt_id _ _ _ _ h2
  have e5 : replaceEnt '&' "nbsp;".data " ".data (strip_html s) = strip_html s :=
    replaceEnt_id _ _ _ _ h2
  conv_lhs => rw [strip_html]
  rw [hrt, e1, e2, e3, e4, e5]
  conv_lhs => rw [strip_html]
  conv_rhs => rw [strip_html]
  exact normalizeWhitespaceQ_idem _

/-- C8 amended witness: a concrete input free of markup. -/
theorem strip_html_idem_witness :
    ('<' ∉ strip_html "hello  world".data ∧ '&' ∉ strip_html "hello  world".data) ∧
    strip_html (strip_html "hello  world".data) = strip_html "hello  world".data :=
  ⟨⟨by decide, by decide⟩, strip_html_idem "hello  world".data (by decide) (by decide)⟩

end RapidSift
